import Mathlib

/-!
Verification development for the cattledb storage core.

We give a shallow embedding of the in-memory `TimeSeries` container
(`cattledb/storage/models.py`), the cell codec, and the store-level key and
guard logic (`cattledb/storage/stores.py`, `cattledb/storage/connection.py`),
and prove the spec-level properties about them.

Modelling conventions:
* Byte strings are `List Nat` with every element `< 256`.
* Python `float` values stored in a Float series are represented by the
  32-bit IEEE-754 pattern they map to under `struct.pack` with format `f`
  (the byte layout is what the properties are about; IEEE rounding itself
  is not modelled).
* Dict values are association lists of string pairs; the msgpack payload is
  modelled by a canonical length-prefixed encoding, as licensed by the spec
  ("an implementation may pick any canonical one so long as read path
  matches write path"), since the msgpack library is external to the repo.
* Python exceptions are modelled with `Except String`.
-/

/-! ## Definitions -/

namespace Cattledb

/-- Little-endian byte list of width `w` for the natural number `n`
(`n` is taken modulo `256 ^ w`, matching the wrap of a fixed-width word). -/
def leBytes : Nat → Nat → List Nat
  | 0, _ => []
  | w + 1, n => n % 256 :: leBytes w (n / 256)

/-- Read a little-endian byte list back into a natural number. -/
def fromLeBytes : List Nat → Nat
  | [] => 0
  | b :: rest => b + 256 * fromLeBytes rest

/-- `struct.pack` with format `i`: int32, two's complement, little endian.
The source only ever packs offsets coming from an `array` of C int32, so
the argument is always in range and the modulus only normalises the sign. -/
def packInt32le (z : Int) : List Nat :=
  leBytes 4 (z % (2 ^ 32 : Nat)).toNat

/-- `struct.unpack` with format `i`: decode 4 little-endian bytes as a
signed int32. -/
def unpackInt32le (bs : List Nat) : Int :=
  if fromLeBytes bs < 2 ^ 31 then (fromLeBytes bs : Int)
  else (fromLeBytes bs : Int) - 2 ^ 32

/-- Length-prefixed encoding of one string (code points as symbols). -/
def packStr (s : String) : List Nat :=
  s.length :: s.data.map Char.toNat

/-- Modelled from the spec: serialize a map as a pair count followed by the
length-prefixed keys and values. -/
def packb (pairs : List (String × String)) : List Nat :=
  pairs.length :: pairs.flatMap (fun p => packStr p.1 ++ packStr p.2)

/-- Parse one length-prefixed string, returning it and the remainder. -/
def unpackStr : List Nat → Option (String × List Nat)
  | [] => none
  | n :: rest =>
    if n ≤ rest.length then
      some (String.mk ((rest.take n).map Char.ofNat), rest.drop n)
    else none

/-- Parse `k` key-value pairs; fails on truncated or trailing data, as the
strict msgpack `unpackb` does. -/
def unpackPairs : Nat → List Nat → Option (List (String × String))
  | 0, [] => some []
  | 0, _ :: _ => none
  | k + 1, l => do
    let (key, r1) ← unpackStr l
    let (v, r2) ← unpackStr r1
    let ps ← unpackPairs k r2
    pure ((key, v) :: ps)

/-- Modelled from the spec: deserialize the dict payload. -/
def unpackb : List Nat → Option (List (String × String))
  | [] => none
  | n :: rest => unpackPairs n rest

/-- Python's `str.lower()` as used on keys and metrics (character-wise
lowercasing). -/
def pyLower (s : String) : String := String.mk (s.data.map Char.toLower)

/-- `SeriesType` from models.py. -/
inductive SeriesType where
  | floatseries
  | dictseries
deriving DecidableEq, Repr

/-- A stored value.  A Float-series value is represented by the IEEE-754
binary32 bit pattern it is stored as (`struct.pack` with format `f`); a
Dict-series value is the string map carried by an event. -/
inductive CValue where
  | fv (bits : Nat)
  | dv (pairs : List (String × String))
deriving DecidableEq, Repr

/-- The `TimeSeries` object: three parallel arrays plus identity fields.
`_timestamps` is an `array` of C uint32 (`"I"`), `_timestamp_offsets` an
`array` of C int32 (`"i"`), `_values` a deque. -/
structure TimeSeries where
  key : String
  metric : String
  series_type : SeriesType
  timestamps : List Nat
  timestamp_offsets : List Int
  values : List CValue
deriving DecidableEq, Repr

namespace TimeSeries

/-- A freshly constructed series (`TimeSeries(key, metric, series_type=t)`
with no initial values): the key and metric are lowercased, the arrays are
empty.  The constructor's `len >= 2` assertions are carried as hypotheses by
the theorems that need them. -/
def fresh (key metric : String) (t : SeriesType) : TimeSeries :=
  { key := pyLower key, metric := pyLower metric, series_type := t,
    timestamps := [], timestamp_offsets := [], values := [] }

/-- `bisect.bisect_left` on the timestamp array: the leftmost insertion
index.  CPython uses binary search; on the (always sorted) arrays of the
container this computes the same index, the first position whose element is
`>= x`. -/
def bisect_left (l : List Nat) (x : Nat) : Nat :=
  match l with
  | [] => 0
  | a :: rest => if a < x then bisect_left rest x + 1 else 0

/-- `bisect.bisect_right`: first position whose element is `> x`. -/
def bisect_right (l : List Nat) (x : Nat) : Nat :=
  match l with
  | [] => 0
  | a :: rest => if a ≤ x then bisect_right rest x + 1 else 0

/-- `list.insert(idx, x)` / `array.insert(idx, x)`. -/
def insertAt (l : List α) (i : Nat) (x : α) : List α :=
  l.take i ++ x :: l.drop i

/-- `list[idx] = x`. -/
def setAt (l : List α) (i : Nat) (x : α) : List α :=
  l.take i ++ x :: l.drop (i + 1)

/-- `len(self)`. -/
def size (s : TimeSeries) : Nat := s.timestamps.length

/-- `empty()`. -/
def isEmpty (s : TimeSeries) : Bool := decide (s.size < 1)

/-- `check_series` (without raising): the three arrays have equal length and
the timestamps are non-decreasing (`check_sorted` asserts `b >= a` for
consecutive elements). -/
def check_series (s : TimeSeries) : Bool :=
  decide (s.timestamps.length = s.values.length) &&
  decide (s.timestamps.length = s.timestamp_offsets.length) &&
  decide (s.timestamps.Chain' (· ≤ ·))

/-- `ts_max` property: last timestamp or `-1`. -/
def ts_max (s : TimeSeries) : Int :=
  match s.timestamps.getLast? with
  | some t => (t : Int)
  | none => -1

/-- `ts_min` property: first timestamp or `-1`. -/
def ts_min (s : TimeSeries) : Int :=
  match s.timestamps.head? with
  | some t => (t : Int)
  | none => -1

/-- A returned `Point`: timestamp, value, and the zoned datetime, which is
fully determined by (timestamp, offset) — `pendulum.from_timestamp(ts,
offset/3600)` — and is therefore modelled as that pair. -/
structure Point where
  ts : Nat
  value : CValue
  dt : Nat × Int
deriving DecidableEq, Repr

/-- `_at(i)` for a valid index. -/
def at_ (s : TimeSeries) (i : Nat) : Option Point := do
  let t ← s.timestamps.get? i
  let o ← s.timestamp_offsets.get? i
  let v ← s.values.get? i
  pure { ts := t, value := v, dt := (t, o) }

/-- `first` property: `None` on an empty series. -/
def first (s : TimeSeries) : Option Point :=
  if s.isEmpty then none else s.at_ 0

/-- `last` property: `None` on an empty series. -/
def last (s : TimeSeries) : Option Point :=
  if s.isEmpty then none else s.at_ (s.size - 1)

/-- The string that `to_hash` feeds to SHA-1:
`"{key}.{metric}.{len}.{ts_min}.{ts_max}"`.  Since SHA-1 maps equal inputs
to equal digests, `to_hash` equality of two series is modelled as equality
of these strings. -/
def to_hash_string (s : TimeSeries) : String :=
  s.key ++ "." ++ s.metric ++ "." ++ toString s.size ++ "." ++
    toString s.ts_min ++ "." ++ toString s.ts_max

/-- The cell payload written for one point (`_storage_item_at` body):
tag byte, packed int32 offset, then the packed value.  `none` when the
stored value does not match the series variant (Python would raise a
`TypeError` from `struct.pack` in that case). -/
def storage_cell (t : SeriesType) (off : Int) (v : CValue) : Option (List Nat) :=
  match t, v with
  | .floatseries, .fv bits => some (1 :: (packInt32le off ++ leBytes 4 bits))
  | .dictseries, .dv pairs => some (2 :: (packInt32le off ++ packb pairs))
  | _, _ => none

/-- `_storage_item_at(i)`: the `(timestamp, bytes)` pair for index `i`. -/
def storage_item_at (s : TimeSeries) (i : Nat) : Option (Nat × List Nat) := do
  let t ← s.timestamps.get? i
  let o ← s.timestamp_offsets.get? i
  let v ← s.values.get? i
  let cell ← storage_cell s.series_type o v
  pure (t, cell)

/-- `insert_point` after timestamp coercion, which always yields a
`(timestamp, offset)` pair.  The value coercion (`float(value)` resp.
`dict(value)`) is the identity on a value of the series' own variant and
raises a `TypeError` otherwise, which is returned as `none`; the structural
merge follows the source: append when the bisect index is the length,
otherwise replace/skip on an equal timestamp, otherwise splice. -/
def insert_point (s : TimeSeries) (timestamp : Nat) (offset : Int) (value : CValue)
    (overwrite : Bool) : Option (TimeSeries × Nat) :=
  let coerced : Option CValue :=
    match s.series_type, value with
    | .floatseries, .fv b => some (.fv b)
    | .dictseries, .dv p => some (.dv p)
    | _, _ => none
  match coerced with
  | none => none
  | some v =>
    let idx := bisect_left s.timestamps timestamp
    if idx = s.timestamps.length then
      some ({ s with timestamps := s.timestamps ++ [timestamp],
                     values := s.values ++ [v],
                     timestamp_offsets := s.timestamp_offsets ++ [offset] }, 1)
    else if s.timestamps.getD idx 0 = timestamp then
      if overwrite then
        some ({ s with timestamp_offsets := setAt s.timestamp_offsets idx offset,
                       values := setAt s.values idx v }, 1)
      else
        some (s, 0)
    else
      some ({ s with timestamps := insertAt s.timestamps idx timestamp,
                     values := insertAt s.values idx v,
                     timestamp_offsets := insertAt s.timestamp_offsets idx offset }, 1)

/-- The decode phase of `insert_storage_item`: tag byte, int32 offset, then
the value, which must match the series variant (`RuntimeError` otherwise,
`struct.error` / msgpack errors on malformed bytes). -/
def decode_cell (t : SeriesType) (cell : List Nat) : Except String (Int × CValue) := do
  let f ← match cell.head? with
    | some b => pure b
    | none => throw "struct.error: unpack requires 1 byte"
  let offBytes := (cell.drop 1).take 4
  if offBytes.length ≠ 4 then
    throw "struct.error: unpack requires 4 bytes"
  let offset := unpackInt32le offBytes
  if f = 1 ∧ t = .floatseries then
    let vb := (cell.drop 5).take 4
    if vb.length ≠ 4 then
      throw "struct.error: unpack requires 4 bytes"
    pure (offset, CValue.fv (fromLeBytes vb))
  else if f = 2 ∧ t = .dictseries then
    match unpackb (cell.drop 5) with
    | some ps => pure (offset, CValue.dv ps)
    | none => throw "msgpack unpack error"
  else
    throw "RuntimeError: Invalid series type or type miss match"

/-- The merge phase of `insert_storage_item`.  Unlike `insert_point`, it has
an explicit unconditional "Prepend" branch when the bisect index is `0`. -/
def storage_merge (s : TimeSeries) (timestamp : Nat) (offset : Int) (value : CValue)
    (overwrite : Bool) : TimeSeries × Nat :=
  let idx := bisect_left s.timestamps timestamp
  if idx = 0 then
    ({ s with timestamps := timestamp :: s.timestamps,
              values := value :: s.values,
              timestamp_offsets := offset :: s.timestamp_offsets }, 1)
  else if idx = s.timestamps.length then
    ({ s with timestamps := s.timestamps ++ [timestamp],
              values := s.values ++ [value],
              timestamp_offsets := s.timestamp_offsets ++ [offset] }, 1)
  else if s.timestamps.getD idx 0 = timestamp then
    if overwrite then
      ({ s with timestamp_offsets := setAt s.timestamp_offsets idx offset,
                values := setAt s.values idx value }, 1)
    else
      (s, 0)
  else
    ({ s with timestamps := insertAt s.timestamps idx timestamp,
              values := insertAt s.values idx value,
              timestamp_offsets := insertAt s.timestamp_offsets idx offset }, 1)

/-- `insert_storage_item(timestamp, by, overwrite)`: decode, then merge. -/
def insert_storage_item (s : TimeSeries) (timestamp : Nat) (cell : List Nat)
    (overwrite : Bool) : Except String (TimeSeries × Nat) := do
  let (offset, value) ← decode_cell s.series_type cell
  pure (storage_merge s timestamp offset value overwrite)

/-- Python's `l[-count:]` for a non-negative `count`: with `count = 0` the
start index `-0` is `0`, so the slice is the whole list. -/
def pysliceLast (count : Nat) (l : List α) : List α :=
  if count = 0 then l else l.drop (l.length - count)

/-- `trim_count_newest(count)`. -/
def trim_count_newest (s : TimeSeries) (count : Nat) : TimeSeries :=
  if s.size ≤ count then s
  else
    { s with timestamps := pysliceLast count s.timestamps,
             values := pysliceLast count s.values,
             timestamp_offsets := pysliceLast count s.timestamp_offsets }

/-- Does a stored value belong to the series variant? -/
def valueMatches (t : SeriesType) (v : CValue) : Bool :=
  match t, v with
  | .floatseries, .fv _ => true
  | .dictseries, .dv _ => true
  | _, _ => false

/-- Well-formedness: the container invariant of the data model — parallel
arrays of one length, strictly ascending timestamps, values of the series'
variant, offsets within int32 (they live in a C `int` array), timestamps
within uint32 (a C `unsigned int` array). -/
def wf (s : TimeSeries) : Prop :=
  s.timestamps.length = s.values.length ∧
  s.timestamps.length = s.timestamp_offsets.length ∧
  s.timestamps.Pairwise (· < ·) ∧
  (∀ v ∈ s.values, valueMatches s.series_type v = true) ∧
  (∀ o ∈ s.timestamp_offsets, -(2 ^ 31) ≤ o ∧ o < 2 ^ 31) ∧
  (∀ t ∈ s.timestamps, t < 2 ^ 32)

instance (s : TimeSeries) : Decidable (wf s) := by
  unfold wf
  infer_instance

/-- The two length equalities and strict ascending order claimed for the
container after insertions. -/
def sorted_parallel (s : TimeSeries) : Prop :=
  s.timestamps.length = s.values.length ∧
  s.timestamps.length = s.timestamp_offsets.length ∧
  s.timestamps.Pairwise (· < ·)

/-- The cell for a point whose value matches the series variant (the only
case the write path meets); the default is never reached there. -/
def cellD (ty : SeriesType) (off : Int) (v : CValue) : List Nat :=
  (storage_cell ty off v).getD []

/-- All `(timestamp, bytes)` pairs of a series, in index order: entry `i` is
`_storage_item_at(i)` (see `storage_item_at_eq_all`). -/
def all_storage_items (s : TimeSeries) : List (Nat × List Nat) :=
  (s.timestamps.zip (s.timestamp_offsets.zip s.values)).map
    (fun q => (q.1, cellD s.series_type q.2.1 q.2.2))

/-- Re-inserting a list of encoded items through `insert_storage_item`,
propagating the first failure like the exception would. -/
def insert_storage_seq (s : TimeSeries) : List (Nat × List Nat) → Except String TimeSeries
  | [] => .ok s
  | (t, cell) :: rest => do
    let (s2, _) ← insert_storage_item s t cell false
    insert_storage_seq s2 rest

/-- A sequence of `insert_point` calls; a call whose value coercion raises
leaves the series unchanged (the exception propagates past the mutation). -/
def insert_point_seq (s : TimeSeries) (calls : List (Nat × Int × CValue × Bool)) :
    TimeSeries :=
  calls.foldl (fun acc q =>
    match insert_point acc q.1 q.2.1 q.2.2.1 q.2.2.2 with
    | some (s2, _) => s2
    | none => acc) s

/-- A one-point Float series used as the C2 counterexample carrier. -/
def exDupMin : TimeSeries :=
  { key := "s1", metric := "ph", series_type := .floatseries,
    timestamps := [100], timestamp_offsets := [0], values := [.fv 0] }

/-- The encoded cell of that point: tag 1, offset 0, float bits 0. -/
def exDupMinCell : List Nat := 1 :: (packInt32le 0 ++ leBytes 4 0)

/-- A two-point Float series whose larger timestamp is duplicated in the
C2 witness. -/
def exDupMid : TimeSeries :=
  { key := "s1", metric := "ph", series_type := .floatseries,
    timestamps := [100, 200], timestamp_offsets := [0, 0],
    values := [.fv 0, .fv 5] }

/-- An encoded cell carrying timestamp-200's payload. -/
def exDupMidCell : List Nat := 1 :: (packInt32le 0 ++ leBytes 4 5)

/-- A two-point Float series for the C5 witness. -/
def exRoundTrip : TimeSeries :=
  { key := "aa", metric := "bb", series_type := .floatseries,
    timestamps := [10, 20], timestamp_offsets := [3600, -7200],
    values := [.fv 1, .fv 2] }

end TimeSeries

/-- Zero-padded decimal rendering: the `w` base-10 digits of `n`, most
significant first, as printed by a width-`w` zero-padded format for
`n < 10 ^ w`. -/
def padDigits : Nat → Nat → List Nat
  | 0, _ => []
  | w + 1, n => padDigits w (n / 10) ++ [n % 10]

/-- Render a digit list as the corresponding decimal string. -/
def digitsToString (ds : List Nat) : String :=
  String.mk (ds.map (fun d => Char.ofNat (48 + d)))

/-- Gregorian date (year, month, day) for a count of days since 1970-01-01:
the conversion `time.gmtime` (an external C-library call) performs for
non-negative timestamps, via the standard civil-from-days algorithm. -/
def civil_from_days (z : Nat) : Nat × Nat × Nat :=
  let z2 := z + 719468
  let era := z2 / 146097
  let doe := z2 % 146097
  let yoe := (doe - doe / 1460 + doe / 36524 - doe / 146096) / 365
  let y := yoe + era * 400
  let doy := doe - (365 * yoe + yoe / 4 - yoe / 100)
  let mp := (5 * doy + 2) / 153
  let d := doy - (153 * mp + 2) / 5 + 1
  let m := if mp < 10 then mp + 3 else mp - 9
  (if m ≤ 2 then y + 1 else y, m, d)

/-- `time.gmtime(ts)` restricted to the (year, month, day) fields. -/
def gmtime_ymd (ts : Nat) : Nat × Nat × Nat := civil_from_days (ts / 86400)

/-- `time.gmtime(ts).tm_hour`. -/
def tm_hour (ts : Nat) : Nat := ts % 86400 / 3600

/-- The digits of the reverse-date key for a calendar day:
`%04d` of `5000 - year`, `%02d` of `50 - month`, `%02d` of `50 - day`. -/
def reverse_day_digits (y m d : Nat) : List Nat :=
  padDigits 4 (5000 - y) ++ padDigits 2 (50 - m) ++ padDigits 2 (50 - d)

/-- `reverse_day_key` applied to a calendar day (the formatting part of the
classmethod, after `time.gmtime`). -/
def reverse_day_key_of_date (y m d : Nat) : String :=
  digitsToString (reverse_day_digits y m d)

/-- `TimeSeriesStore.reverse_day_key(ts)` (identical code on
`ActivityStore` and `EventStore`). -/
def reverse_day_key (ts : Nat) : String :=
  let q := gmtime_ymd ts
  reverse_day_key_of_date q.1 q.2.1 q.2.2

/-- Lexicographic strict comparison of equal-symbol lists, as a Bool. -/
def lexLtb : List Nat → List Nat → Bool
  | [], [] => false
  | [], _ :: _ => true
  | _ :: _, [] => false
  | a :: as, b :: bs => if a < b then true else if b < a then false else lexLtb as bs

/-- Chronological order on calendar days. -/
def dateLt (y1 m1 d1 y2 m2 d2 : Nat) : Prop :=
  y1 < y2 ∨ (y1 = y2 ∧ (m1 < m2 ∨ (m1 = m2 ∧ d1 < d2)))

instance (y1 m1 d1 y2 m2 d2 : Nat) : Decidable (dateLt y1 m1 d1 y2 m2 d2) := by
  unfold dateLt
  infer_instance

/-- Modelled from the spec: `ts_daily_left(ts)` = midnight (UTC) of the day
of `ts`. -/
def ts_daily_left (ts : Nat) : Nat := ts - ts % 86400

/-- Modelled from the spec: `ts_daily_right(ts)` = next midnight − 1. -/
def ts_daily_right (ts : Nat) : Nat := ts_daily_left ts + 86399

/-- Modelled from the spec: `ts_hourly_left`. -/
def ts_hourly_left (ts : Nat) : Nat := ts - ts % 3600

/-- Modelled from the spec: `ts_hourly_right`. -/
def ts_hourly_right (ts : Nat) : Nat := ts_hourly_left ts + 3599

namespace TimeSeries

/-- The point triples of a series, in order. -/
def points (s : TimeSeries) : List (Nat × Int × CValue) :=
  s.timestamps.zip (s.timestamp_offsets.zip s.values)

/-- One bucketing step as in `daily()` / `hourly()`: starting at point `i`,
take the run of consecutive points inside `[left ts_i, right ts_i]` (the
first point always belongs to its own window).  Fuel-driven so that the
recursion is structural; the initial fuel `l.length` always suffices since
every step consumes at least one point. -/
def bucketByAux (left right : Nat → Nat) :
    Nat → List (Nat × Int × CValue) → List (List (Nat × Int × CValue))
  | 0, _ => []
  | _, [] => []
  | fuel + 1, p :: rest =>
    let pred := fun q : Nat × Int × CValue =>
      decide (left p.1 ≤ q.1) && decide (q.1 ≤ right p.1)
    (p :: rest.takeWhile pred) :: bucketByAux left right fuel (rest.dropWhile pred)

/-- The generator `daily()` / `hourly()` materialised: the list of runs. -/
def bucketBy (left right : Nat → Nat) (l : List (Nat × Int × CValue)) :
    List (List (Nat × Int × CValue)) :=
  bucketByAux left right l.length l

/-- The scalar produced for one bucket.  `count` is an exact integer;
Python's `min`/`max` of a single-element list return the element itself
without comparing, so a singleton Dict bucket yields the dict; the numeric
results over float values are kept symbolic (the applied function name and
the operand bit patterns) since IEEE-754 arithmetic is outside this
embedding — no property below depends on those numbers. -/
inductive AggValue where
  | count (n : Nat)
  | dictVal (pairs : List (String × String))
  | floatFn (fn : String) (vals : List Nat)
deriving DecidableEq, Repr

/-- Is a value a float? -/
def isFloat : CValue → Bool
  | .fv _ => true
  | .dv _ => false

/-- The float bit patterns of a value list. -/
def floatBits (vals : List CValue) : List Nat :=
  vals.filterMap (fun v => match v with | .fv b => some b | .dv _ => none)

/-- Apply one of the six aggregation functions to a bucket's values,
with Python's dynamic-typing behaviour: `len` works on anything; `sum`,
`mean` and `amp` raise `TypeError` as soon as a dict meets `+`/`-`;
`min`/`max` of a single element return it unordered, and raise `TypeError`
on multi-element dict lists (dicts are unorderable). -/
def applyAgg (fn : String) (vals : List CValue) : Except String AggValue :=
  if fn = "count" then .ok (.count vals.length)
  else if fn = "min" ∨ fn = "max" then
    match vals with
    | [CValue.dv p] => .ok (.dictVal p)
    | _ =>
      if vals.all isFloat then .ok (.floatFn fn (floatBits vals))
      else .error "TypeError: dict is not orderable"
  else
    if vals.all isFloat then .ok (.floatFn fn (floatBits vals))
    else .error "TypeError: unsupported operand type for dict"

/-- `aggregation(group, function)`, materialised: validate the group, then
the function (both `ValueError` otherwise — raised on first iteration in
Python since the body is a generator), then produce one
`(bucket-left-boundary, first-point offset, scalar)` per bucket. -/
def aggregation (s : TimeSeries) (group function : String) :
    Except String (List (Nat × Int × AggValue)) :=
  if group = "hourly" ∨ group = "daily" then
    let left := if group = "hourly" then ts_hourly_left else ts_daily_left
    let right := if group = "hourly" then ts_hourly_right else ts_daily_right
    if function = "sum" ∨ function = "count" ∨ function = "min" ∨
        function = "max" ∨ function = "amp" ∨ function = "mean" then
      (bucketBy left right s.points).mapM (fun b =>
        match b with
        | [] => .error "IndexError: empty bucket"
        | p :: _ => do
          let v ← applyAgg function (b.map (fun q => q.2.2))
          pure (left p.1, p.2.1, v))
    else .error "ValueError: Invalid aggregation group"
  else .error "ValueError: Invalid aggregation group"

/-- A Dict-variant series holding one event, as built by
`EventList("ev", "log", ...)`. -/
def exEventList : TimeSeries :=
  { key := "ev", metric := "log", series_type := .dictseries,
    timestamps := [0], timestamp_offsets := [0],
    values := [.dv [("a", "1")]] }

end TimeSeries

/-- A configured metric (`timeseries_settings.py` is not in the snapshot;
the spec's MetricDefinition is (name, id, deletePossible)). -/
structure MetricObject where
  name : String
  id : String
  delete_possible : Bool
deriving DecidableEq, Repr

/-- The `Connection` fields the store guards read: the read-only flag and —
modelled from the spec ("in the reimplementation they are fields on the
Connection") — the metric registry that the source reaches through the
module-global `METRIC_NAME_LOOKUP`. -/
structure Connection where
  read_only : Bool
  metrics : List MetricObject
deriving Repr

/-- `get_metric_object`: registry lookup by user-facing name, `KeyError`
otherwise. -/
def get_metric_object (metrics : List MetricObject) (name : String) :
    Except String MetricObject :=
  match metrics.find? (fun m => m.name = name) with
  | some m => .ok m
  | none => .error "KeyError: metric not known"

/-- The backend timeseries table, as the multiset of cells the batched
mutations have written: (row key, column, cell bytes). -/
abbrev TsTable := List (String × String × List Nat)

/-- `TimeSeriesStore.get_row_key`. -/
def get_row_key (base_key : String) (day_ts : Nat) : String :=
  base_key ++ "#" ++ reverse_day_key day_ts

/-- `daily_storage_buckets()`: group the points into day runs and encode
each point (`_storage_item_at`). -/
def daily_storage_buckets (s : TimeSeries) : List (Nat × List (Nat × List Nat)) :=
  (TimeSeries.bucketBy ts_daily_left ts_daily_right s.points).map
    (fun b =>
      match b with
      | [] => (0, [])
      | p :: _ =>
        (ts_daily_left p.1,
         b.map (fun q => (q.1, TimeSeries.cellD s.series_type q.2.1 q.2.2))))

/-- `TimeSeriesStore.insert_timeseries`: read-only gate, `assert bool(ts)`
(the container re-check plus non-emptiness), metric lookup, then one
column write per point grouped per day row, submitted as a batch. -/
def insert_timeseries (conn : Connection) (table : TsTable) (ts : TimeSeries) :
    Except String (TsTable × Nat) :=
  if conn.read_only then
    .error "RuntimeError: Cannot execute insert_timeseries command in readonly mode"
  else if ts.check_series = false then .error "AssertionError"
  else if ts.size = 0 then .error "AssertionError"
  else do
    let mo ← get_metric_object conn.metrics ts.metric
    let puts := (daily_storage_buckets ts).flatMap (fun db =>
      db.2.map (fun it =>
        (get_row_key ts.key db.1, mo.id ++ ":" ++ toString it.1, it.2)))
    pure (table ++ puts, ts.size)

/-- Modelled from the spec: `helper.daily_timestamps(from, to)` (helper.py
is not in the snapshot) — one representative timestamp per day covered by
the closed interval, here each day's left boundary. -/
def daily_timestamps (from_ts to_ts : Nat) : List Nat :=
  (List.range ((ts_daily_left to_ts - ts_daily_left from_ts) / 86400 + 1)).map
    (fun i => ts_daily_left from_ts + i * 86400)

/-- `TimeSeriesStore.delete_timeseries`: read-only gate, argument asserts,
per-metric delete-permission check, then one batched column-family-range
delete per day row; returns the number of day rows touched. -/
def delete_timeseries (conn : Connection) (table : TsTable) (key : String)
    (metrics : List String) (from_ts to_ts : Nat) :
    Except String (TsTable × Nat) :=
  if conn.read_only then
    .error "RuntimeError: Cannot execute delete_timeseries command in readonly mode"
  else if ¬(from_ts ≤ to_ts) then .error "AssertionError"
  else if metrics.length = 0 then .error "AssertionError"
  else if (metrics.headD "").length ≤ 1 then .error "AssertionError"
  else do
    let row_keys := (daily_timestamps from_ts to_ts).map (get_row_key key)
    let mos ← metrics.mapM (get_metric_object conn.metrics)
    if mos.all (fun m => m.delete_possible) then
      let columns := mos.map (fun m => m.id ++ ":")
      pure (table.filter (fun cell =>
        !(row_keys.contains cell.1 &&
          columns.any (fun c => cell.2.1.startsWith c))), row_keys.length)
    else .error "RuntimeError: Delete not possible on metric"

/-- `ActivityStore.get_hour_key`: the two-digit hour. -/
def get_hour_key (ts : Nat) : String := digitsToString (padDigits 2 (tm_hour ts))

/-- `ActivityStore.get_insert_keys`: the total row key plus one row key per
parent, with `assert`-enforced length bounds. -/
def get_insert_keys (reader_id : String) (day_ts : Nat)
    (parent_ids : Option (List String)) : Except String (List String) :=
  if ¬(3 ≤ reader_id.length ∧ reader_id.length ≤ 32) then .error "AssertionError"
  else
    let reverse_day_ts := reverse_day_key day_ts
    let total_key := "t#" ++ reverse_day_ts ++ "#" ++ reader_id
    match parent_ids with
    | none => .ok [total_key]
    | some ps =>
      if ¬(1 ≤ ps.length ∧ ps.length ≤ 3) then .error "AssertionError"
      else if ps.all (fun p => decide (3 ≤ p.length) && decide (p.length ≤ 32)) then
        .ok (total_key :: ps.map (fun p =>
          p ++ "#" ++ reverse_day_ts ++ "#" ++ reader_id))
      else .error "AssertionError"

/-- The activity counter table: most recent value of each (row, column)
counter first. -/
abbrev Counters := List ((String × String) × Int)

/-- Current value of a counter, auto-initialised to 0. -/
def lookupCounter (cs : Counters) (row column : String) : Int :=
  match cs.find? (fun e => e.1 = (row, column)) with
  | some e => e.2
  | none => 0

/-- `counter_inc`: atomic increment returning the post-increment value. -/
def counter_inc (cs : Counters) (row column : String) (value : Int) :
    Counters × Int :=
  let nv := lookupCounter cs row column + value
  (((row, column), nv) :: cs, nv)

/-- The `for r in row_keys` loop of `incr_activity`: increment each row's
counter in turn, appending the returned post-increment values. -/
def incr_fold (column : String) (value : Int) :
    List String → Counters → List Int → Counters × List Int
  | [], cs, acc => (cs, acc)
  | k :: ks, cs, acc =>
    let st := counter_inc cs k column value
    incr_fold column value ks st.1 (acc ++ [st.2])

/-- `ActivityStore.incr_activity`: read-only gate, fan-out row keys, one
counter increment per row on column `c:HH.device`, collecting the
post-increment values. -/
def incr_activity (conn : Connection) (cs : Counters) (reader_id device_id : String)
    (timestamp : Nat) (parent_ids : Option (List String)) (value : Int) :
    Except String (Counters × List Int) :=
  if conn.read_only then
    .error "RuntimeError: Cannot execute incr_activity in readonly mode"
  else do
    let row_keys ← get_insert_keys reader_id timestamp parent_ids
    let column := "c:" ++ get_hour_key timestamp ++ "." ++ device_id
    pure (incr_fold column value row_keys cs [])

/-- Keep the old state when a call failed (a raised exception leaves the
backend untouched). -/
def runState (r : Except String (σ × α)) (s : σ) : σ :=
  match r with
  | .ok p => p.1
  | .error _ => s

end Cattledb


/-! ## Theorems -/

namespace Cattledb

theorem fromLeBytes_leBytes (w n : Nat) (h : n < 256 ^ w) :
    fromLeBytes (leBytes w n) = n := by
  induction w generalizing n with
  | zero => simp [leBytes, fromLeBytes]; omega
  | succ w ih =>
    simp only [leBytes, fromLeBytes]
    rw [ih (n / 256) (by
      have : 256 ^ (w + 1) = 256 ^ w * 256 := by ring
      omega)]
    omega

theorem leBytes_length (w n : Nat) : (leBytes w n).length = w := by
  induction w generalizing n with
  | zero => rfl
  | succ w ih => simp [leBytes, ih]

theorem leBytes_lt_256 (w n : Nat) : ∀ b ∈ leBytes w n, b < 256 := by
  induction w generalizing n with
  | zero => simp [leBytes]
  | succ w ih =>
    intro b hb
    simp only [leBytes, List.mem_cons] at hb
    rcases hb with h | h
    · omega
    · exact ih _ b h

/-- Packing an in-range int32 and unpacking it gives the value back. -/
theorem unpackInt32le_packInt32le (z : Int) (h1 : -(2 ^ 31) ≤ z) (h2 : z < 2 ^ 31) :
    unpackInt32le (packInt32le z) = z := by
  unfold packInt32le unpackInt32le
  have h0 : 0 ≤ z % (2 ^ 32 : Nat) := Int.emod_nonneg z (by norm_num)
  have hlt : z % (2 ^ 32 : Nat) < (2 ^ 32 : Nat) :=
    Int.emod_lt_of_pos z (by norm_num)
  have hmod : (z % (2 ^ 32 : Nat)).toNat < 256 ^ 4 := by
    have h256 : (256 : Nat) ^ 4 = 2 ^ 32 := by norm_num
    omega
  rw [fromLeBytes_leBytes 4 _ hmod]
  have hcast : ((z % (2 ^ 32 : Nat)).toNat : Int) = z % (2 ^ 32 : Nat) :=
    Int.toNat_of_nonneg h0
  split <;> push_cast at * <;> omega

theorem unpackStr_packStr (s : String) (t : List Nat) :
    unpackStr (packStr s ++ t) = some (s, t) := by
  simp only [packStr, unpackStr, List.cons_append]
  rw [if_pos (show s.length ≤ ((s.data.map Char.toNat) ++ t).length by
    rw [List.length_append, List.length_map]
    exact Nat.le_add_right _ _)]
  have hlen : s.length = (s.data.map Char.toNat).length := by
    rw [List.length_map]
    cases s
    rfl
  have htake : ((s.data.map Char.toNat) ++ t).take s.length = s.data.map Char.toNat := by
    rw [hlen, List.take_left]
  have hdrop : ((s.data.map Char.toNat) ++ t).drop s.length = t := by
    rw [hlen, List.drop_left]
  rw [htake, hdrop, List.map_map]
  have hid : (Char.ofNat ∘ Char.toNat) = id := by
    funext c
    simp [Function.comp, Char.ofNat_toNat]
  rw [hid, List.map_id]

theorem unpackPairs_flatMap (ps : List (String × String)) :
    unpackPairs ps.length (ps.flatMap (fun p => packStr p.1 ++ packStr p.2)) = some ps := by
  induction ps with
  | nil => rfl
  | cons p rest ih =>
    simp only [List.length_cons, List.flatMap_cons, unpackPairs, List.append_assoc]
    rw [unpackStr_packStr]
    simp only [Option.bind_eq_bind, Option.some_bind]
    rw [unpackStr_packStr]
    simp [ih]

/-- The modelled read path matches the modelled write path. -/
theorem unpackb_packb (ps : List (String × String)) : unpackb (packb ps) = some ps := by
  simp [packb, unpackb, unpackPairs_flatMap]

namespace TimeSeries

theorem bisect_left_le (l : List Nat) (x : Nat) : bisect_left l x ≤ l.length := by
  induction l with
  | nil => simp [bisect_left]
  | cons a rest ih =>
    simp only [bisect_left, List.length_cons]
    split <;> omega

theorem lt_of_mem_take_bisect_left (l : List Nat) (x : Nat) :
    ∀ a ∈ l.take (bisect_left l x), a < x := by
  induction l with
  | nil => simp
  | cons a rest ih =>
    simp only [bisect_left]
    split
    · intro b hb
      rw [List.take_succ_cons] at hb
      rcases List.mem_cons.mp hb with h | h
      · omega
      · exact ih b h
    · simp

theorem le_getD_bisect_left (l : List Nat) (x : Nat) (h : bisect_left l x < l.length) :
    x ≤ l.getD (bisect_left l x) 0 := by
  induction l with
  | nil => simp at h
  | cons a rest ih =>
    simp only [bisect_left] at *
    split at h
    · rename_i ha
      rw [if_pos ha]
      simpa using ih (by simpa using h)
    · rename_i ha
      rw [if_neg ha]
      simpa using Nat.le_of_not_lt ha

theorem insertAt_length (l : List α) (i : Nat) (x : α) (h : i ≤ l.length) :
    (insertAt l i x).length = l.length + 1 := by
  simp only [insertAt, List.length_append, List.length_cons, List.length_take,
    List.length_drop]
  omega

theorem setAt_length (l : List α) (i : Nat) (x : α) (h : i < l.length) :
    (setAt l i x).length = l.length := by
  simp only [setAt, List.length_append, List.length_cons, List.length_take,
    List.length_drop]
  omega

theorem pairwise_append_singleton {l : List Nat} {x : Nat}
    (hl : l.Pairwise (· < ·)) (hx : ∀ a ∈ l, a < x) :
    (l ++ [x]).Pairwise (· < ·) := by
  rw [List.pairwise_append]
  exact ⟨hl, List.pairwise_singleton _ _, by simpa using hx⟩

theorem pairwise_insertAt {l : List Nat} {i : Nat} {x : Nat}
    (hl : l.Pairwise (· < ·))
    (hpre : ∀ a ∈ l.take i, a < x)
    (hpost : ∀ a ∈ l.drop i, x < a) :
    (insertAt l i x).Pairwise (· < ·) := by
  unfold insertAt
  have hsplit : l.take i ++ l.drop i = l := List.take_append_drop i l
  have hl2 : (l.take i ++ l.drop i).Pairwise (· < ·) := by rw [hsplit]; exact hl
  rw [List.pairwise_append] at hl2
  rw [List.pairwise_append]
  refine ⟨hl2.1, ?_, ?_⟩
  · rw [List.pairwise_cons]
    exact ⟨hpost, hl2.2.1⟩
  · intro a ha b hb
    rcases List.mem_cons.mp hb with rfl | hb
    · exact hpre a ha
    · exact hl2.2.2 a ha b hb

theorem insert_point_preserves (s : TimeSeries) (h : sorted_parallel s)
    (t : Nat) (off : Int) (v : CValue) (ow : Bool) (s2 : TimeSeries) (n : Nat)
    (heq : insert_point s t off v ow = some (s2, n)) : sorted_parallel s2 := by
  obtain ⟨hlv, hlo, hsort⟩ := h
  unfold insert_point at heq
  set idx := bisect_left s.timestamps t with hidx
  have hle : idx ≤ s.timestamps.length := bisect_left_le _ _
  rcases hcoerce : (match s.series_type, v with
    | SeriesType.floatseries, CValue.fv b => some (CValue.fv b)
    | SeriesType.dictseries, CValue.dv p => some (CValue.dv p)
    | _, _ => none) with _ | v'
  · rw [hcoerce] at heq; simp at heq
  rw [hcoerce] at heq
  simp only at heq
  by_cases happ : idx = s.timestamps.length
  · rw [if_pos happ] at heq
    have hall : ∀ a ∈ s.timestamps, a < t := by
      intro a ha
      apply lt_of_mem_take_bisect_left s.timestamps t
      rw [← hidx, happ, List.take_length]
      exact ha
    obtain ⟨rfl, _⟩ := Prod.mk.injEq .. ▸ Option.some.injEq .. ▸ heq
    refine ⟨by simp [hlv], by simp [hlo], pairwise_append_singleton hsort hall⟩
  · rw [if_neg happ] at heq
    have hlt : idx < s.timestamps.length := lt_of_le_of_ne hle happ
    by_cases hdup : s.timestamps.getD idx 0 = t
    · rw [if_pos hdup] at heq
      by_cases how : ow
      · rw [if_pos how] at heq
        obtain ⟨rfl, _⟩ := Prod.mk.injEq .. ▸ Option.some.injEq .. ▸ heq
        refine ⟨?_, ?_, hsort⟩
        · rw [hlv, setAt_length]; omega
        · rw [hlo, setAt_length]; omega
      · rw [if_neg how] at heq
        obtain ⟨rfl, _⟩ := Prod.mk.injEq .. ▸ Option.some.injEq .. ▸ heq
        exact ⟨hlv, hlo, hsort⟩
    · rw [if_neg hdup] at heq
      obtain ⟨rfl, _⟩ := Prod.mk.injEq .. ▸ Option.some.injEq .. ▸ heq
      have hge : t ≤ s.timestamps.getD idx 0 := le_getD_bisect_left _ _ hlt
      have hstrict : t < s.timestamps.getD idx 0 := lt_of_le_of_ne hge (Ne.symm hdup)
      have hdropeq : s.timestamps.drop idx =
          s.timestamps.getD idx 0 :: s.timestamps.drop (idx + 1) := by
        rw [List.getD_eq_getElem _ _ hlt]
        exact List.drop_eq_getElem_cons hlt
      have hpost : ∀ a ∈ s.timestamps.drop idx, t < a := by
        intro a ha
        rw [hdropeq] at ha
        rcases List.mem_cons.mp ha with rfl | ha
        · exact hstrict
        · have hsub : (s.timestamps.drop idx).Pairwise (· < ·) :=
            hsort.sublist (List.drop_sublist _ _)
          rw [hdropeq, List.pairwise_cons] at hsub
          exact lt_trans hstrict (hsub.1 a ha)
      refine ⟨?_, ?_, ?_⟩
      · rw [insertAt_length _ _ _ hle, insertAt_length _ _ _ (by omega), hlv]
      · rw [insertAt_length _ _ _ hle, insertAt_length _ _ _ (by omega), hlo]
      · exact pairwise_insertAt hsort (lt_of_mem_take_bisect_left _ _) hpost

theorem bisect_left_eq_length_of_all_lt (l : List Nat) (x : Nat)
    (h : ∀ a ∈ l, a < x) : bisect_left l x = l.length := by
  induction l with
  | nil => rfl
  | cons a rest ih =>
    simp only [bisect_left, List.length_cons]
    rw [if_pos (h a (List.mem_cons_self a rest))]
    rw [ih (fun b hb => h b (List.mem_cons_of_mem a hb))]

theorem bisect_left_of_mem (l : List Nat) (hs : l.Pairwise (· < ·)) (t : Nat)
    (ht : t ∈ l) :
    bisect_left l t < l.length ∧ l.getD (bisect_left l t) 0 = t := by
  induction l with
  | nil => simp at ht
  | cons a rest ih =>
    rw [List.pairwise_cons] at hs
    simp only [bisect_left]
    by_cases ha : a < t
    · have htr : t ∈ rest := by
        rcases List.mem_cons.mp ht with rfl | h
        · omega
        · exact h
      have := ih hs.2 htr
      rw [if_pos ha]
      constructor
      · simpa using this.1
      · simpa using this.2
    · have hta : t = a := by
        rcases List.mem_cons.mp ht with rfl | h
        · rfl
        · exact absurd (hs.1 t h) ha
      rw [if_neg ha]
      simp [hta]

theorem bisect_left_head (rest : List Nat) (t : Nat) :
    bisect_left (t :: rest) t = 0 := by
  simp [bisect_left]

theorem bisect_left_ne_zero_of_mem_ne_head (l : List Nat) (hs : l.Pairwise (· < ·))
    (t : Nat) (ht : t ∈ l) (hhead : l.head? ≠ some t) :
    bisect_left l t ≠ 0 := by
  cases l with
  | nil => simp at ht
  | cons a rest =>
    have hne : a ≠ t := by
      intro h
      exact hhead (by simp [h])
    have htr : t ∈ rest := by
      rcases List.mem_cons.mp ht with rfl | h
      · exact absurd rfl hne
      · exact h
    rw [List.pairwise_cons] at hs
    have : a < t := hs.1 t htr
    simp [bisect_left, this]

/-- When every stored timestamp is smaller, the merge appends (the prepend
branch fires instead on an empty series, with the same effect on parallel
arrays). -/
theorem storage_merge_grow (s : TimeSeries) (t : Nat) (off : Int) (v : CValue)
    (ow : Bool) (h : ∀ a ∈ s.timestamps, a < t)
    (hlv : s.timestamps.length = s.values.length)
    (hlo : s.timestamps.length = s.timestamp_offsets.length) :
    storage_merge s t off v ow =
      ({ s with timestamps := s.timestamps ++ [t],
                values := s.values ++ [v],
                timestamp_offsets := s.timestamp_offsets ++ [off] }, 1) := by
  unfold storage_merge
  rw [bisect_left_eq_length_of_all_lt s.timestamps t h]
  by_cases hnil : s.timestamps.length = 0
  · have hts : s.timestamps = [] := List.length_eq_zero.mp hnil
    have hvs : s.values = [] := List.length_eq_zero.mp (by omega)
    have hos : s.timestamp_offsets = [] := List.length_eq_zero.mp (by omega)
    rw [if_pos hnil]
    simp [hts, hvs, hos]
  · rw [if_neg hnil, if_pos rfl]

/-- A duplicate of the smallest stored timestamp reaches the unconditional
"Prepend" branch: the point is prepended and `1` returned. -/
theorem storage_merge_dup_head (s : TimeSeries) (t : Nat) (off : Int) (v : CValue)
    (ow : Bool) (hhead : s.timestamps.head? = some t) :
    storage_merge s t off v ow =
      ({ s with timestamps := t :: s.timestamps,
                values := v :: s.values,
                timestamp_offsets := off :: s.timestamp_offsets }, 1) := by
  unfold storage_merge
  cases hts : s.timestamps with
  | nil => rw [hts] at hhead; simp at hhead
  | cons a rest =>
    rw [hts] at hhead
    have : a = t := by simpa using hhead
    subst this
    rw [bisect_left_head, if_pos rfl]

/-- A duplicate of any stored timestamp other than the smallest is ignored:
`0` is returned and the series is untouched. -/
theorem storage_merge_dup_mid (s : TimeSeries) (t : Nat) (off : Int) (v : CValue)
    (hs : s.timestamps.Pairwise (· < ·)) (ht : t ∈ s.timestamps)
    (hhead : s.timestamps.head? ≠ some t) :
    storage_merge s t off v false = (s, 0) := by
  unfold storage_merge
  have h0 := bisect_left_ne_zero_of_mem_ne_head s.timestamps hs t ht hhead
  have hmem := bisect_left_of_mem s.timestamps hs t ht
  rw [if_neg h0, if_neg (Nat.ne_of_lt hmem.1), if_pos hmem.2]
  rfl

theorem packInt32le_length (z : Int) : (packInt32le z).length = 4 :=
  leBytes_length 4 _

theorem decode_cell_float (off : Int) (bits : Nat)
    (h1 : -(2 ^ 31) ≤ off) (h2 : off < 2 ^ 31) :
    decode_cell .floatseries (1 :: (packInt32le off ++ leBytes 4 bits)) =
      .ok (off, CValue.fv (fromLeBytes (leBytes 4 bits))) := by
  unfold decode_cell
  have hoff : ((1 :: (packInt32le off ++ leBytes 4 bits)).drop 1).take 4 =
      packInt32le off := by
    rw [List.drop_one, List.tail_cons, List.take_left' (packInt32le_length off)]
  have hval : ((1 :: (packInt32le off ++ leBytes 4 bits)).drop 5).take 4 =
      leBytes 4 bits := by
    have : (1 : Nat) :: (packInt32le off ++ leBytes 4 bits) =
        (1 :: packInt32le off) ++ leBytes 4 bits := by simp
    rw [this, List.drop_left' (by simp [packInt32le_length]),
      List.take_of_length_le (by rw [leBytes_length])]
  simp only [List.head?_cons, hoff, hval, packInt32le_length, leBytes_length]
  rw [unpackInt32le_packInt32le off h1 h2]
  rfl

theorem decode_cell_dict (off : Int) (ps : List (String × String))
    (h1 : -(2 ^ 31) ≤ off) (h2 : off < 2 ^ 31) :
    decode_cell .dictseries (2 :: (packInt32le off ++ packb ps)) =
      .ok (off, CValue.dv ps) := by
  unfold decode_cell
  have hoff : ((2 :: (packInt32le off ++ packb ps)).drop 1).take 4 =
      packInt32le off := by
    rw [List.drop_one, List.tail_cons, List.take_left' (packInt32le_length off)]
  have hval : (2 :: (packInt32le off ++ packb ps)).drop 5 = packb ps := by
    have : (2 : Nat) :: (packInt32le off ++ packb ps) =
        (2 :: packInt32le off) ++ packb ps := by simp
    rw [this, List.drop_left' (by simp [packInt32le_length])]
  simp only [List.head?_cons, hoff, hval, packInt32le_length]
  rw [unpackInt32le_packInt32le off h1 h2]
  simp [unpackb_packb]
  rfl

/-- Decoding any cell produced by `storage_cell` for the matching series
variant succeeds; the offset round-trips exactly. -/
theorem decode_cell_storage_cell (ty : SeriesType) (off : Int) (v : CValue)
    (cell : List Nat) (hcell : storage_cell ty off v = some cell)
    (h1 : -(2 ^ 31) ≤ off) (h2 : off < 2 ^ 31) :
    ∃ v2, decode_cell ty cell = .ok (off, v2) ∧ valueMatches ty v2 = true := by
  cases ty <;> cases v
  case floatseries.fv bits =>
    simp only [storage_cell, Option.some.injEq] at hcell
    subst hcell
    exact ⟨_, decode_cell_float off _ h1 h2, rfl⟩
  case floatseries.dv ps => simp [storage_cell] at hcell
  case dictseries.fv bits => simp [storage_cell] at hcell
  case dictseries.dv ps =>
    simp only [storage_cell, Option.some.injEq] at hcell
    subst hcell
    exact ⟨_, decode_cell_dict off _ h1 h2, rfl⟩

theorem storage_cell_eq_cellD (ty : SeriesType) (off : Int) (v : CValue)
    (h : valueMatches ty v = true) :
    storage_cell ty off v = some (cellD ty off v) := by
  cases ty <;> cases v <;> simp_all [valueMatches, storage_cell, cellD]

theorem storage_item_at_eq_all (s : TimeSeries)
    (hlv : s.timestamps.length = s.values.length)
    (hlo : s.timestamps.length = s.timestamp_offsets.length)
    (hvm : ∀ v ∈ s.values, valueMatches s.series_type v = true) :
    ∀ i, storage_item_at s i = (all_storage_items s).get? i := by
  obtain ⟨k, m, ty, T, O, V⟩ := s
  simp only at hlv hlo hvm
  induction T generalizing O V with
  | nil =>
    intro i
    have : O = [] := List.length_eq_zero.mp (by simpa using hlo.symm)
    subst this
    simp [storage_item_at, all_storage_items]
  | cons t T ih =>
    intro i
    cases O with
    | nil => simp at hlo
    | cons o O =>
      cases V with
      | nil => simp at hlv
      | cons v V =>
        cases i with
        | zero =>
          simp only [storage_item_at, all_storage_items, List.zip_cons_cons,
            List.map_cons, List.get?_cons_zero, List.get?]
          simp [storage_cell_eq_cellD ty o v (hvm v (List.mem_cons_self v V))]
        | succ i =>
          have hrec := ih O V (by simpa using hlv) (by simpa using hlo)
            (fun w hw => hvm w (List.mem_cons_of_mem v hw)) i
          simpa [storage_item_at, all_storage_items] using hrec

theorem insert_storage_seq_grow (rest : List (Nat × Int × CValue)) :
    ∀ (done : TimeSeries),
    done.timestamps.length = done.values.length →
    done.timestamps.length = done.timestamp_offsets.length →
    (∀ a ∈ done.timestamps, ∀ q ∈ rest, a < q.1) →
    (rest.map (fun q => q.1)).Pairwise (· < ·) →
    (∀ q ∈ rest, -(2 ^ 31) ≤ q.2.1 ∧ q.2.1 < 2 ^ 31) →
    (∀ q ∈ rest, valueMatches done.series_type q.2.2 = true) →
    ∃ s2, insert_storage_seq done
        (rest.map (fun q => (q.1, cellD done.series_type q.2.1 q.2.2))) = .ok s2 ∧
      s2.key = done.key ∧ s2.metric = done.metric ∧
      s2.series_type = done.series_type ∧
      s2.timestamps = done.timestamps ++ rest.map (fun q => q.1) := by
  induction rest with
  | nil =>
    intro done _ _ _ _ _ _
    exact ⟨done, rfl, rfl, rfl, rfl, by simp [insert_storage_seq]⟩
  | cons q rest ih =>
    intro done hlv hlo hgt hsorted hoff hval
    obtain ⟨t, off, v⟩ := q
    have hvm : valueMatches done.series_type v = true :=
      hval _ (List.mem_cons_self _ _)
    have hcell := storage_cell_eq_cellD done.series_type off v hvm
    have hrange := hoff _ (List.mem_cons_self _ _)
    obtain ⟨v2, hdec, hvm2⟩ :=
      decode_cell_storage_cell done.series_type off v _ hcell hrange.1 hrange.2
    have hstep : insert_storage_item done t (cellD done.series_type off v) false =
        .ok (storage_merge done t off v2 false) := by
      simp [insert_storage_item, hdec]
    have hall : ∀ a ∈ done.timestamps, a < t := by
      intro a ha
      exact hgt a ha _ (List.mem_cons_self _ _)
    have hmerge := storage_merge_grow done t off v2 false hall hlv hlo
    set done2 : TimeSeries :=
      { done with timestamps := done.timestamps ++ [t],
                  values := done.values ++ [v2],
                  timestamp_offsets := done.timestamp_offsets ++ [off] } with hdone2
    have hsorted2 : (rest.map (fun q => q.1)).Pairwise (· < ·) := by
      rw [List.map_cons, List.pairwise_cons] at hsorted
      exact hsorted.2
    have hheadlt : ∀ q2 ∈ rest, t < q2.1 := by
      rw [List.map_cons, List.pairwise_cons] at hsorted
      intro q2 hq2
      exact hsorted.1 q2.1 (List.mem_map_of_mem _ hq2)
    obtain ⟨s2, hseq, hk, hm, hty, hts⟩ := ih done2
      (by simp [hdone2, hlv]) (by simp [hdone2, hlo])
      (by
        intro a ha q2 hq2
        simp only [hdone2, List.mem_append, List.mem_singleton] at ha
        rcases ha with ha | rfl
        · exact hgt a ha q2 (List.mem_cons_of_mem _ hq2)
        · exact hheadlt q2 hq2)
      hsorted2
      (fun q2 hq2 => hoff q2 (List.mem_cons_of_mem _ hq2))
      (fun q2 hq2 => hval q2 (List.mem_cons_of_mem _ hq2))
    refine ⟨s2, ?_, ?_, ?_, ?_, ?_⟩
    · simp only [List.map_cons, insert_storage_seq, hstep, hmerge]
      simpa [hdone2] using hseq
    · simpa [hdone2] using hk
    · simpa [hdone2] using hm
    · simpa [hdone2] using hty
    · rw [hts]
      simp [hdone2]

theorem insert_point_seq_preserves (s : TimeSeries) (h : sorted_parallel s)
    (calls : List (Nat × Int × CValue × Bool)) :
    sorted_parallel (insert_point_seq s calls) := by
  induction calls generalizing s with
  | nil => exact h
  | cons q rest ih =>
    simp only [insert_point_seq, List.foldl_cons]
    rcases heq : insert_point s q.1 q.2.1 q.2.2.1 q.2.2.2 with _ | ⟨s2, n⟩
    · exact ih s h
    · exact ih s2 (insert_point_preserves s h q.1 q.2.1 q.2.2.1 q.2.2.2 s2 n heq)

end TimeSeries

namespace Claims

open TimeSeries

/-- C3: after any finite sequence of `insert_point` calls on a freshly
constructed `TimeSeries`, the timestamp array is strictly ascending (no two
stored points share a timestamp) and the three parallel arrays
`timestamps`, `timestamp_offsets` and `values` all have equal length. -/
theorem insert_point_calls_keep_invariant (key metric : String) (ty : SeriesType)
    (calls : List (Nat × Int × CValue × Bool)) :
    (insert_point_seq (fresh key metric ty) calls).timestamps.Pairwise (· < ·) ∧
    (insert_point_seq (fresh key metric ty) calls).timestamps.length =
      (insert_point_seq (fresh key metric ty) calls).values.length ∧
    (insert_point_seq (fresh key metric ty) calls).timestamps.length =
      (insert_point_seq (fresh key metric ty) calls).timestamp_offsets.length := by
  have h := insert_point_seq_preserves (fresh key metric ty)
    ⟨rfl, rfl, List.Pairwise.nil⟩ calls
  exact ⟨h.2.2, h.1, h.2.1⟩

/-- C2 counterexample: on a series holding exactly one point at timestamp
100, inserting a well-formed encoded cell with the same timestamp 100 and
`overwrite = false` does NOT return 0 and leave the series unchanged — the
unconditional prepend branch fires, the point is duplicated and 1 is
returned. -/
theorem insert_storage_item_dup_smallest_prepends :
    insert_storage_item exDupMin 100 exDupMinCell false =
      .ok ({ exDupMin with
              timestamps := [100, 100],
              values := [CValue.fv 0, CValue.fv 0],
              timestamp_offsets := [0, 0] }, 1) ∧
    ({ exDupMin with
        timestamps := [100, 100],
        values := [CValue.fv 0, CValue.fv 0],
        timestamp_offsets := [0, 0] }, 1) ≠ (exDupMin, 0) := by
  constructor
  · rfl
  · decide

/-- C2 amended: `insert_storage_item` applies the same duplicate handling as
`insert_point` only away from index 0.  For a stored timestamp that is not
the smallest, a duplicate insert with `overwrite = false` returns 0 and
leaves the series unchanged; but when the duplicate equals the smallest
stored timestamp the bisect index is 0 and the unconditional prepend branch
adds a second point with that timestamp, returning 1. -/
theorem insert_storage_item_duplicate_behaviour (s : TimeSeries) (t : Nat)
    (off : Int) (v : CValue) (cell : List Nat)
    (hs : s.timestamps.Pairwise (· < ·))
    (hcell : storage_cell s.series_type off v = some cell)
    (h1 : -(2 ^ 31) ≤ off) (h2 : off < 2 ^ 31)
    (ht : t ∈ s.timestamps) :
    (s.timestamps.head? ≠ some t →
      insert_storage_item s t cell false = .ok (s, 0)) ∧
    (s.timestamps.head? = some t →
      ∃ v2, insert_storage_item s t cell false =
        .ok ({ s with
                timestamps := t :: s.timestamps,
                values := v2 :: s.values,
                timestamp_offsets := off :: s.timestamp_offsets }, 1)) := by
  obtain ⟨v2, hdec, _⟩ := decode_cell_storage_cell s.series_type off v cell hcell h1 h2
  constructor
  · intro hhead
    simp [insert_storage_item, hdec, storage_merge_dup_mid s t off v2 hs ht hhead]
  · intro hhead
    exact ⟨v2, by simp [insert_storage_item, hdec,
      storage_merge_dup_head s t off v2 false hhead]⟩

/-- Witness for the C2 amended theorem at concrete inputs: a duplicate of
the non-smallest timestamp 200 is ignored with result 0. -/
theorem insert_storage_item_duplicate_behaviour_witness :
    insert_storage_item exDupMid 200 exDupMidCell false = .ok (exDupMid, 0) :=
  (insert_storage_item_duplicate_behaviour exDupMid 200 0 (.fv 5) exDupMidCell
    (by decide) (by rfl) (by decide) (by decide) (by decide)).1 (by decide)

/-- C5: encoding every point of a well-formed series through the storage
cell encoder and re-inserting all `(timestamp, bytes)` pairs through
`insert_storage_item` into a fresh series with the same key, metric and
series type yields a series with the same `to_hash` (same key, metric,
length, `ts_min` and `ts_max`); and the item list fed in is exactly
`_storage_item_at(i)` for each index. -/
theorem storage_round_trip (s : TimeSeries) (hwf : wf s)
    (hkey : pyLower s.key = s.key) (hmetric : pyLower s.metric = s.metric) :
    (∀ i, storage_item_at s i = (all_storage_items s).get? i) ∧
    ∃ s2, insert_storage_seq (fresh s.key s.metric s.series_type)
        (all_storage_items s) = .ok s2 ∧
      to_hash_string s2 = to_hash_string s := by
  obtain ⟨hlv, hlo, hsort, hvm, hoffr, _⟩ := hwf
  refine ⟨storage_item_at_eq_all s hlv hlo hvm, ?_⟩
  have hzlen : s.timestamp_offsets.length = (s.timestamp_offsets.zip s.values).length := by
    rw [List.length_zip]
    omega
  have hfst : ((s.timestamps.zip (s.timestamp_offsets.zip s.values)).map
      (fun q => q.1)) = s.timestamps := by
    have := List.map_fst_zip s.timestamps (s.timestamp_offsets.zip s.values)
      (by omega)
    simpa using this
  obtain ⟨s2, hseq, hk, hm, _, hts⟩ :=
    insert_storage_seq_grow (s.timestamps.zip (s.timestamp_offsets.zip s.values))
      (fresh s.key s.metric s.series_type) rfl rfl
      (by intro a ha; simp [fresh] at ha)
      (by rw [hfst]; exact hsort)
      (by
        intro q hq
        have hmem := List.of_mem_zip hq
        have hmem2 := List.of_mem_zip hmem.2
        exact hoffr _ hmem2.1)
      (by
        intro q hq
        have hmem := List.of_mem_zip hq
        have hmem2 := List.of_mem_zip hmem.2
        exact hvm _ hmem2.2)
  refine ⟨s2, hseq, ?_⟩
  have hkey2 : s2.key = s.key := by rw [hk]; simpa [fresh] using hkey
  have hmetric2 : s2.metric = s.metric := by rw [hm]; simpa [fresh] using hmetric
  have hts2 : s2.timestamps = s.timestamps := by
    rw [hts, hfst]
    simp [fresh]
  unfold to_hash_string size ts_min ts_max
  rw [hkey2, hmetric2, hts2]

/-- Witness for C5 at a concrete two-point Float series. -/
theorem storage_round_trip_witness :
    (∀ i, storage_item_at exRoundTrip i = (all_storage_items exRoundTrip).get? i) ∧
    ∃ s2, insert_storage_seq (fresh exRoundTrip.key exRoundTrip.metric
        exRoundTrip.series_type) (all_storage_items exRoundTrip) = .ok s2 ∧
      to_hash_string s2 = to_hash_string exRoundTrip :=
  storage_round_trip exRoundTrip (by decide) (by rfl) (by rfl)

/-- C9: on an empty `TimeSeries` the accessors `ts_min` and `ts_max` both
return the sentinel `-1` rather than raising, and `first` and `last` both
return `None`; all four are total on the empty series. -/
theorem empty_series_accessors (s : TimeSeries) (h : s.timestamps = []) :
    s.ts_min = -1 ∧ s.ts_max = -1 ∧ s.first = none ∧ s.last = none := by
  refine ⟨?_, ?_, ?_, ?_⟩ <;>
    simp [ts_min, ts_max, first, last, isEmpty, size, h]

/-- Witness for C9: the freshly constructed empty series. -/
theorem empty_series_accessors_witness :
    (fresh "aa" "bb" SeriesType.floatseries).ts_min = -1 ∧
    (fresh "aa" "bb" SeriesType.floatseries).ts_max = -1 ∧
    (fresh "aa" "bb" SeriesType.floatseries).first = none ∧
    (fresh "aa" "bb" SeriesType.floatseries).last = none :=
  empty_series_accessors (fresh "aa" "bb" SeriesType.floatseries) rfl

/-- C10: on a non-empty series `trim_count_newest 0` keeps every point
(the guard `len <= count` does not fire and the `-0` tail slice is the
whole array), and `trim_count_newest n` with `n ≥ length` is a no-op. -/
theorem trim_count_newest_zero_noop (s : TimeSeries) (h : 0 < s.size) :
    trim_count_newest s 0 = s ∧ ∀ n, s.size ≤ n → trim_count_newest s n = s := by
  constructor
  · unfold trim_count_newest
    rw [if_neg (by omega)]
    simp [pysliceLast]
  · intro n hn
    unfold trim_count_newest
    rw [if_pos hn]

/-- Witness for C10 on a two-point series, with `n = 5 ≥ length`. -/
theorem trim_count_newest_zero_noop_witness :
    trim_count_newest exDupMid 0 = exDupMid ∧ trim_count_newest exDupMid 5 = exDupMid := by
  have h := trim_count_newest_zero_noop exDupMid (by decide)
  exact ⟨h.1, h.2 5 (by decide)⟩

end Claims

theorem padDigits_length (w n : Nat) : (padDigits w n).length = w := by
  induction w generalizing n with
  | zero => rfl
  | succ w ih => simp [padDigits, ih]

theorem padDigits_lt_10 (w n : Nat) : ∀ x ∈ padDigits w n, x < 10 := by
  induction w generalizing n with
  | zero => simp [padDigits]
  | succ w ih =>
    intro x hx
    simp only [padDigits, List.mem_append, List.mem_singleton] at hx
    rcases hx with h | rfl
    · exact ih _ x h
    · omega

theorem lexLtb_append_left (p1 p2 q1 q2 : List Nat) (hlen : p1.length = p2.length)
    (h : lexLtb p1 p2 = true) : lexLtb (p1 ++ q1) (p2 ++ q2) = true := by
  induction p1 generalizing p2 with
  | nil =>
    have : p2 = [] := List.length_eq_zero.mp hlen.symm
    subst this
    simp [lexLtb] at h
  | cons a as ih =>
    cases p2 with
    | nil => simp at hlen
    | cons b bs =>
      simp only [lexLtb] at h
      simp only [List.cons_append, lexLtb]
      split at h
      · rw [if_pos (by assumption)]
      · split at h
        · exact absurd h (by simp)
        · rw [if_neg (by assumption), if_neg (by assumption)]
          exact ih bs (by simpa using hlen) h

theorem lexLtb_append_same (p q1 q2 : List Nat) (h : lexLtb q1 q2 = true) :
    lexLtb (p ++ q1) (p ++ q2) = true := by
  induction p with
  | nil => simpa using h
  | cons a as ih =>
    simp only [List.cons_append, lexLtb]
    rw [if_neg (Nat.lt_irrefl a), if_neg (Nat.lt_irrefl a)]
    exact ih

theorem lexLtb_padDigits (w a b : Nat) (hab : a < b) (hb : b < 10 ^ w) :
    lexLtb (padDigits w a) (padDigits w b) = true := by
  induction w generalizing a b with
  | zero => omega
  | succ w ih =>
    simp only [padDigits]
    by_cases hq : a / 10 < b / 10
    · exact lexLtb_append_left _ _ _ _ (by simp [padDigits_length])
        (ih _ _ hq (by
          have : 10 ^ (w + 1) = 10 ^ w * 10 := by ring
          omega))
    · have hq2 : a / 10 = b / 10 := by omega
      rw [hq2]
      apply lexLtb_append_same
      have : a % 10 < b % 10 := by omega
      simp [lexLtb, this]

/-- The reverse-date digit string is strictly antitone in the calendar day,
for valid days with year at most 4999. -/
theorem reverse_day_digits_antitone (y1 m1 d1 y2 m2 d2 : Nat)
    (hy1 : y1 ≤ 4999) (hy2 : y2 ≤ 4999)
    (hm1 : 1 ≤ m1) (hm1b : m1 ≤ 12) (hm2 : 1 ≤ m2) (hm2b : m2 ≤ 12)
    (hd1 : 1 ≤ d1) (hd1b : d1 ≤ 31) (hd2 : 1 ≤ d2) (hd2b : d2 ≤ 31)
    (hlt : dateLt y1 m1 d1 y2 m2 d2) :
    lexLtb (reverse_day_digits y2 m2 d2) (reverse_day_digits y1 m1 d1) = true := by
  unfold reverse_day_digits
  rw [List.append_assoc, List.append_assoc]
  rcases hlt with hy | ⟨rfl, hm | ⟨rfl, hd⟩⟩
  · exact lexLtb_append_left _ _ _ _ (by simp [padDigits_length])
      (lexLtb_padDigits 4 _ _ (by omega) (by omega))
  · apply lexLtb_append_same
    exact lexLtb_append_left _ _ _ _ (by simp [padDigits_length])
      (lexLtb_padDigits 2 _ _ (by omega) (by omega))
  · apply lexLtb_append_same
    apply lexLtb_append_same
    exact lexLtb_padDigits 2 _ _ (by omega) (by omega)

/-- Digit-wise comparison agrees with character comparison of the rendered
decimal digits. -/
theorem charOfDigit_lt_iff (a b : Nat) (ha : a < 10) (hb : b < 10) :
    (a < b ↔ Char.ofNat (48 + a) < Char.ofNat (48 + b)) := by
  have h : ∀ p q : Fin 10,
      (p.val < q.val ↔ Char.ofNat (48 + p.val) < Char.ofNat (48 + q.val)) := by decide
  exact h ⟨a, ha⟩ ⟨b, hb⟩

/-- Digit-list lexicographic order transports to `String` lexicographic
order of the rendered strings. -/
theorem string_lt_of_lexLtb (ds1 ds2 : List Nat) (h1 : ∀ x ∈ ds1, x < 10)
    (h2 : ∀ x ∈ ds2, x < 10) (h : lexLtb ds1 ds2 = true) :
    digitsToString ds1 < digitsToString ds2 := by
  rw [String.lt_iff_toList_lt]
  show List.Lex (· < ·) (ds1.map fun d => Char.ofNat (48 + d))
    (ds2.map fun d => Char.ofNat (48 + d))
  induction ds1 generalizing ds2 with
  | nil =>
    cases ds2 with
    | nil => simp [lexLtb] at h
    | cons b bs => exact List.Lex.nil
  | cons a as ih =>
    cases ds2 with
    | nil => simp [lexLtb] at h
    | cons b bs =>
      have ha : a < 10 := h1 a (List.mem_cons_self a as)
      have hb : b < 10 := h2 b (List.mem_cons_self b bs)
      simp only [lexLtb] at h
      simp only [List.map_cons]
      by_cases hab : a < b
      · exact List.Lex.rel ((charOfDigit_lt_iff a b ha hb).mp hab)
      · rw [if_neg hab] at h
        by_cases hba : b < a
        · rw [if_pos hba] at h
          simp at h
        · rw [if_neg hba] at h
          have hba2 : a = b := by omega
          subst hba2
          exact List.Lex.cons (ih bs (fun x hx => h1 x (List.mem_cons_of_mem a hx))
            (fun x hx => h2 x (List.mem_cons_of_mem a hx)) h)

theorem reverse_day_digits_lt_10 (y m d : Nat) :
    ∀ x ∈ reverse_day_digits y m d, x < 10 := by
  intro x hx
  unfold reverse_day_digits at hx
  simp only [List.mem_append] at hx
  rcases hx with (hx | hx) | hx
  · exact padDigits_lt_10 _ _ x hx
  · exact padDigits_lt_10 _ _ x hx
  · exact padDigits_lt_10 _ _ x hx

namespace Claims

open TimeSeries

theorem cell_take_offset (b : Nat) (p rest : List Nat) (hp : p.length = 4) :
    ((b :: (p ++ rest)).drop 1).take 4 = p := by
  rw [List.drop_one, List.tail_cons, List.take_left' hp]

theorem cell_drop_payload (b : Nat) (p rest : List Nat) (hp : p.length = 4) :
    (b :: (p ++ rest)).drop 5 = rest := by
  have : b :: (p ++ rest) = (b :: p) ++ rest := by simp
  rw [this, List.drop_left' (by simp [hp])]

/-- C1: the encoded storage cell of a Float-series point is exactly the tag
byte 1, the point's offset as 4 little-endian two's-complement int32 bytes
(decoding those four bytes recovers the offset exactly), and the value's
4 little-endian IEEE-754 binary32 bytes — 9 bytes in all; for a Dict-series
point it is the tag byte 2, the same 4 offset bytes, then the serialized
map payload. -/
theorem storage_cell_layout (s : TimeSeries) (i t : Nat) (cell : List Nat)
    (hitem : storage_item_at s i = some (t, cell))
    (hoffr : ∀ o ∈ s.timestamp_offsets, -(2 ^ 31) ≤ o ∧ o < 2 ^ 31) :
    s.timestamps.get? i = some t ∧
    ∃ off, s.timestamp_offsets.get? i = some off ∧
      ((s.series_type = .floatseries →
        ∃ bits, s.values.get? i = some (.fv bits) ∧
          cell = 1 :: (packInt32le off ++ leBytes 4 bits) ∧
          cell.length = 9 ∧
          unpackInt32le ((cell.drop 1).take 4) = off ∧
          cell.drop 5 = leBytes 4 bits) ∧
       (s.series_type = .dictseries →
        ∃ ps, s.values.get? i = some (.dv ps) ∧
          cell = 2 :: (packInt32le off ++ packb ps) ∧
          unpackInt32le ((cell.drop 1).take 4) = off ∧
          unpackb (cell.drop 5) = some ps)) := by
  unfold storage_item_at at hitem
  rcases hT : s.timestamps.get? i with _ | t2 <;> rw [hT] at hitem
  · simp at hitem
  rcases hO : s.timestamp_offsets.get? i with _ | off <;> rw [hO] at hitem
  · simp at hitem
  rcases hV : s.values.get? i with _ | v <;> rw [hV] at hitem
  · simp at hitem
  simp only [Option.bind_eq_bind, Option.some_bind] at hitem
  rcases hC : storage_cell s.series_type off v with _ | c
  · rw [hC] at hitem
    simp at hitem
  rw [hC] at hitem
  simp only [Option.some_bind, Option.some.injEq, Prod.mk.injEq] at hitem
  obtain ⟨rfl, rfl⟩ := hitem
  have hrange := hoffr off (List.get?_mem hO)
  refine ⟨rfl, off, rfl, ?_, ?_⟩
  · intro hty
    rw [hty] at hC
    cases v with
    | fv bits =>
      simp only [storage_cell, Option.some.injEq] at hC
      subst hC
      refine ⟨bits, rfl, rfl, ?_, ?_, ?_⟩
      · simp [packInt32le_length, leBytes_length]
      · rw [cell_take_offset _ _ _ (packInt32le_length off)]
        exact unpackInt32le_packInt32le off hrange.1 hrange.2
      · exact cell_drop_payload _ _ _ (packInt32le_length off)
    | dv ps => simp [storage_cell] at hC
  · intro hty
    rw [hty] at hC
    cases v with
    | fv bits => simp [storage_cell] at hC
    | dv ps =>
      simp only [storage_cell, Option.some.injEq] at hC
      subst hC
      refine ⟨ps, rfl, rfl, ?_, ?_⟩
      · rw [cell_take_offset _ _ _ (packInt32le_length off)]
        exact unpackInt32le_packInt32le off hrange.1 hrange.2
      · rw [cell_drop_payload _ _ _ (packInt32le_length off)]
        exact unpackb_packb ps

/-- Witness for C1 at index 0 of the concrete Float series. -/
theorem storage_cell_layout_witness :
    exRoundTrip.timestamps.get? 0 = some 10 ∧
    ∃ off, exRoundTrip.timestamp_offsets.get? 0 = some off ∧
      ((exRoundTrip.series_type = .floatseries →
        ∃ bits, exRoundTrip.values.get? 0 = some (.fv bits) ∧
          (1 :: (packInt32le 3600 ++ leBytes 4 1)) =
            1 :: (packInt32le off ++ leBytes 4 bits) ∧
          (1 :: (packInt32le 3600 ++ leBytes 4 1) : List Nat).length = 9 ∧
          unpackInt32le (((1 :: (packInt32le 3600 ++ leBytes 4 1)).drop 1).take 4) = off ∧
          (1 :: (packInt32le 3600 ++ leBytes 4 1) : List Nat).drop 5 = leBytes 4 bits) ∧
       (exRoundTrip.series_type = .dictseries →
        ∃ ps, exRoundTrip.values.get? 0 = some (.dv ps) ∧
          (1 :: (packInt32le 3600 ++ leBytes 4 1)) = 2 :: (packInt32le off ++ packb ps) ∧
          unpackInt32le (((1 :: (packInt32le 3600 ++ leBytes 4 1)).drop 1).take 4) = off ∧
          unpackb ((1 :: (packInt32le 3600 ++ leBytes 4 1)).drop 5) = some ps)) :=
  storage_cell_layout exRoundTrip 0 10 (1 :: (packInt32le 3600 ++ leBytes 4 1))
    (by rfl) (by decide)

/-- C4: the reverse-date row-key component is strictly antitone: for valid
calendar days d1 < d2 (year at most 4999, positive month and day), the
8-character key of d1 is lexicographically greater than that of d2; in
particular the key of 2023-06-15 (timestamp 1686787200) is "29774435" and
the key of 2024-01-02 (timestamp 1704198600, 12:30 UTC) is "29764948". -/
theorem reverse_day_key_antitone (y1 m1 d1 y2 m2 d2 : Nat)
    (hy1 : y1 ≤ 4999) (hy2 : y2 ≤ 4999)
    (hm1 : 1 ≤ m1) (hm1b : m1 ≤ 12) (hm2 : 1 ≤ m2) (hm2b : m2 ≤ 12)
    (hd1 : 1 ≤ d1) (hd1b : d1 ≤ 31) (hd2 : 1 ≤ d2) (hd2b : d2 ≤ 31)
    (hlt : dateLt y1 m1 d1 y2 m2 d2) :
    reverse_day_key_of_date y2 m2 d2 < reverse_day_key_of_date y1 m1 d1 ∧
    (reverse_day_key_of_date y1 m1 d1).length = 8 ∧
    (reverse_day_key_of_date y2 m2 d2).length = 8 ∧
    reverse_day_key 1686787200 = "29774435" ∧
    reverse_day_key 1704198600 = "29764948" := by
  refine ⟨?_, ?_, ?_, by decide, by decide⟩
  · exact string_lt_of_lexLtb _ _ (reverse_day_digits_lt_10 y2 m2 d2)
      (reverse_day_digits_lt_10 y1 m1 d1)
      (reverse_day_digits_antitone y1 m1 d1 y2 m2 d2 hy1 hy2 hm1 hm1b hm2 hm2b
        hd1 hd1b hd2 hd2b hlt)
  · unfold reverse_day_key_of_date digitsToString reverse_day_digits
    simp [String.length, padDigits_length]
  · unfold reverse_day_key_of_date digitsToString reverse_day_digits
    simp [String.length, padDigits_length]

/-- C6: with the Connection's read-only flag set, the mutating entry points
`insert_timeseries`, `delete_timeseries` and `incr_activity` all fail with
the read-only error before any backend write, so the stored state is
unchanged by the failed call. -/
theorem read_only_blocks_mutations (conn : Connection) (h : conn.read_only = true)
    (table : TsTable) (cs : Counters) (ts : TimeSeries) (key reader dev : String)
    (metrics : List String) (a b t0 : Nat) (pids : Option (List String))
    (value : Int) :
    (∃ e, insert_timeseries conn table ts = .error e) ∧
    runState (insert_timeseries conn table ts) table = table ∧
    (∃ e, delete_timeseries conn table key metrics a b = .error e) ∧
    runState (delete_timeseries conn table key metrics a b) table = table ∧
    (∃ e, incr_activity conn cs reader dev t0 pids value = .error e) ∧
    runState (incr_activity conn cs reader dev t0 pids value) cs = cs := by
  unfold insert_timeseries delete_timeseries incr_activity
  rw [h]
  simp [runState]

/-- Witness for C6 with a concrete read-only connection. -/
theorem read_only_blocks_mutations_witness :
    (∃ e, insert_timeseries ⟨true, []⟩ [] exDupMin = .error e) ∧
    runState (insert_timeseries ⟨true, []⟩ [] exDupMin) [] = ([] : TsTable) ∧
    (∃ e, delete_timeseries ⟨true, []⟩ [] "kk" ["ph"] 0 0 = .error e) ∧
    runState (delete_timeseries ⟨true, []⟩ [] "kk" ["ph"] 0 0) [] = ([] : TsTable) ∧
    (∃ e, incr_activity ⟨true, []⟩ [] "rrr" "ddd" 0 none 1 = .error e) ∧
    runState (incr_activity ⟨true, []⟩ [] "rrr" "ddd" 0 none 1) [] = ([] : Counters) :=
  read_only_blocks_mutations ⟨true, []⟩ rfl [] [] exDupMin "kk" "rrr" "ddd"
    ["ph"] 0 0 0 none 1

theorem lookupCounter_cons (k col : String) (nv : Int) (cs : Counters)
    (r c : String) :
    lookupCounter (((k, col), nv) :: cs) r c =
      if (k, col) = (r, c) then nv else lookupCounter cs r c := by
  unfold lookupCounter
  by_cases h : ((k, col) = (r, c)) <;> simp [List.find?_cons, h]

/-- Effect of the per-row increment fold of `incr_activity`: every counter
at the increment column moves up by `value` times the row's multiplicity in
the key list; all other counters are untouched; one result per row. -/
theorem incr_fold_spec (column : String) (value : Int) (keys : List String) :
    ∀ (cs : Counters) (acc : List Int),
    (∀ r c, lookupCounter (incr_fold column value keys cs acc).1 r c =
      lookupCounter cs r c + (if c = column then value * (keys.count r) else 0)) ∧
    (incr_fold column value keys cs acc).2.length = acc.length + keys.length := by
  induction keys with
  | nil =>
    intro cs acc
    simp [incr_fold, List.count_nil]
  | cons k ks ih =>
    intro cs acc
    simp only [incr_fold, counter_inc]
    obtain ⟨ih1, ih2⟩ := ih (((k, column), lookupCounter cs k column + value) :: cs)
      (acc ++ [lookupCounter cs k column + value])
    constructor
    · intro r c
      rw [ih1 r c, lookupCounter_cons]
      by_cases hkr : ((k, column) = (r, c))
      · obtain ⟨hk1, hk2⟩ := Prod.ext_iff.mp hkr
        subst hk1
        subst hk2
        rw [if_pos rfl, if_pos rfl, if_pos rfl]
        rw [List.count_cons_self]
        push_cast
        ring
      · rw [if_neg hkr]
        by_cases hc : c = column
        · subst hc
          have hrk : r ≠ k := by
            intro hrk
            exact hkr (by rw [hrk])
          rw [if_pos rfl, if_pos rfl, List.count_cons_of_ne hrk]
        · rw [if_neg hc, if_neg hc]
    · rw [ih2]
      simp only [List.length_append, List.length_cons, List.length_nil]
      omega

/-- C8: under the preconditions 3 ≤ |reader| ≤ 32, 1 ≤ |parents| ≤ 3 and
3 ≤ |p| ≤ 32 for each parent, `get_insert_keys` returns exactly the total
key `t#rev#reader` followed by one `p#rev#reader` key per parent in order —
1 + |parents| keys; violating any bound raises (AssertionError, the
ArgumentError kind); and a non-read-only `incr_activity` applies exactly
one increment of the counter at column `c:HH.device` to each returned row
key. -/
theorem get_insert_keys_spec (conn : Connection) (hro : conn.read_only = false)
    (reader device : String) (day : Nat) (ps : List String) (value : Int)
    (cs : Counters)
    (h1 : 3 ≤ reader.length) (h2 : reader.length ≤ 32)
    (h3 : 1 ≤ ps.length) (h4 : ps.length ≤ 3)
    (h5 : ∀ p ∈ ps, 3 ≤ p.length ∧ p.length ≤ 32) :
    (get_insert_keys reader day (some ps) =
      .ok (("t#" ++ reverse_day_key day ++ "#" ++ reader) ::
        ps.map (fun p => p ++ "#" ++ reverse_day_key day ++ "#" ++ reader))) ∧
    ((("t#" ++ reverse_day_key day ++ "#" ++ reader) ::
        ps.map (fun p => p ++ "#" ++ reverse_day_key day ++ "#" ++ reader)).length
      = 1 + ps.length) ∧
    (∀ (r : String) (d : Nat) (q : Option (List String)),
      ¬(3 ≤ r.length ∧ r.length ≤ 32) → ∃ e, get_insert_keys r d q = .error e) ∧
    (∀ (d : Nat) (qs : List String), ¬(1 ≤ qs.length ∧ qs.length ≤ 3) →
      ∃ e, get_insert_keys reader d (some qs) = .error e) ∧
    (∀ (d : Nat) (qs : List String) (p : String), p ∈ qs →
      ¬(3 ≤ p.length ∧ p.length ≤ 32) →
      ∃ e, get_insert_keys reader d (some qs) = .error e) ∧
    (∀ keys, get_insert_keys reader day (some ps) = .ok keys →
      ∃ st res, incr_activity conn cs reader device day (some ps) value =
          .ok (st, res) ∧
        res.length = keys.length ∧
        ∀ r c, lookupCounter st r c = lookupCounter cs r c +
          (if c = "c:" ++ get_hour_key day ++ "." ++ device then
            value * (keys.count r) else 0)) := by
  have hkeys : get_insert_keys reader day (some ps) =
      .ok (("t#" ++ reverse_day_key day ++ "#" ++ reader) ::
        ps.map (fun p => p ++ "#" ++ reverse_day_key day ++ "#" ++ reader)) := by
    unfold get_insert_keys
    rw [if_neg (not_not_intro ⟨h1, h2⟩)]
    simp only
    rw [if_neg (not_not_intro ⟨h3, h4⟩)]
    rw [if_pos (by
      rw [List.all_eq_true]
      intro p hp
      have := h5 p hp
      simp only [Bool.and_eq_true, decide_eq_true_eq]
      omega)]
  refine ⟨hkeys, by rw [List.length_cons, List.length_map]; omega, ?_, ?_, ?_, ?_⟩
  · intro r d q hr
    unfold get_insert_keys
    rw [if_pos hr]
    exact ⟨_, rfl⟩
  · intro d qs hq
    unfold get_insert_keys
    rw [if_neg (not_not_intro ⟨h1, h2⟩)]
    simp only
    rw [if_pos hq]
    exact ⟨_, rfl⟩
  · intro d qs p hp hpl
    unfold get_insert_keys
    rw [if_neg (not_not_intro ⟨h1, h2⟩)]
    simp only
    by_cases hq : 1 ≤ qs.length ∧ qs.length ≤ 3
    · rw [if_neg (not_not_intro hq)]
      rw [if_neg (by
        simp only [List.all_eq_true, not_forall]
        refine ⟨p, hp, ?_⟩
        simp only [Bool.and_eq_true, decide_eq_true_eq]
        omega)]
      exact ⟨_, rfl⟩
    · rw [if_pos hq]
      exact ⟨_, rfl⟩
  · intro keys hk
    unfold incr_activity
    rw [hro]
    simp only [Bool.false_eq_true, if_false, hk]
    obtain ⟨hlook, hlen⟩ := incr_fold_spec
      ("c:" ++ get_hour_key day ++ "." ++ device) value keys cs []
    refine ⟨_, _, rfl, ?_, ?_⟩
    · rw [hlen]
      simp
    · intro r c
      exact hlook r c

/-- Witness for C8 at concrete reader, device, day and one parent. -/
theorem get_insert_keys_spec_witness :
    (get_insert_keys "rrr" 0 (some ["ppp"]) =
      .ok (("t#" ++ reverse_day_key 0 ++ "#" ++ "rrr") ::
        ["ppp"].map (fun p => p ++ "#" ++ reverse_day_key 0 ++ "#" ++ "rrr"))) ∧
    ((("t#" ++ reverse_day_key 0 ++ "#" ++ "rrr") ::
        ["ppp"].map (fun p => p ++ "#" ++ reverse_day_key 0 ++ "#" ++ "rrr")).length
      = 1 + (["ppp"] : List String).length) ∧
    (∀ (r : String) (d : Nat) (q : Option (List String)),
      ¬(3 ≤ r.length ∧ r.length ≤ 32) → ∃ e, get_insert_keys r d q = .error e) ∧
    (∀ (d : Nat) (qs : List String), ¬(1 ≤ qs.length ∧ qs.length ≤ 3) →
      ∃ e, get_insert_keys "rrr" d (some qs) = .error e) ∧
    (∀ (d : Nat) (qs : List String) (p : String), p ∈ qs →
      ¬(3 ≤ p.length ∧ p.length ≤ 32) →
      ∃ e, get_insert_keys "rrr" d (some qs) = .error e) ∧
    (∀ keys, get_insert_keys "rrr" 0 (some ["ppp"]) = .ok keys →
      ∃ st res, incr_activity ⟨false, []⟩ [] "rrr" "dd" 0 (some ["ppp"]) 1 =
          .ok (st, res) ∧
        res.length = keys.length ∧
        ∀ r c, lookupCounter st r c = lookupCounter [] r c +
          (if c = "c:" ++ get_hour_key 0 ++ "." ++ "dd" then
            (1 : Int) * (keys.count r : Int) else 0)) :=
  get_insert_keys_spec ⟨false, []⟩ rfl "rrr" "dd" 0 ["ppp"] 1 []
    (by decide) (by decide) (by decide) (by decide)
    (by intro p hp; simp only [List.mem_singleton] at hp; subst hp; exact ⟨by decide, by decide⟩)

/-- C7 (evaluating the code at the failing input): `aggregation` never
validates the series variant.  On a Dict-variant series (an `EventList`
with one event) the valid arguments group "daily", function "count"
produce a bucket-count result instead of raising anything; the numeric
functions fail with a `TypeError` (not the claimed ArgumentError kind)
when consumed; only an invalid group or function raises the
`ValueError` (ArgumentError kind). -/
theorem aggregation_on_dict_series_produces_results :
    aggregation exEventList "daily" "count" = .ok [(0, 0, AggValue.count 1)] ∧
    aggregation exEventList "daily" "sum" =
      .error "TypeError: unsupported operand type for dict" ∧
    aggregation exEventList "bogus" "count" =
      .error "ValueError: Invalid aggregation group" := by
  refine ⟨?_, ?_, ?_⟩ <;> rfl

/-- Witness for C4 at the two dates named by the spec scenario. -/
theorem reverse_day_key_antitone_witness :
    reverse_day_key_of_date 2024 1 2 < reverse_day_key_of_date 2023 6 15 ∧
    (reverse_day_key_of_date 2023 6 15).length = 8 ∧
    (reverse_day_key_of_date 2024 1 2).length = 8 ∧
    reverse_day_key 1686787200 = "29774435" ∧
    reverse_day_key 1704198600 = "29764948" :=
  reverse_day_key_antitone 2023 6 15 2024 1 2 (by decide) (by decide) (by decide)
    (by decide) (by decide) (by decide) (by decide) (by decide) (by decide)
    (by decide) (by decide)

end Claims

end Cattledb
